import Mathlib

set_option maxHeartbeats 1000000

/-!
Shallow embedding of the atticus request-matching engine
(src/atticus/mockingbird.py, src/atticus/core.py,
src/atticus/mockingbird_process.py) for checking the natural-language
specification against the code.

Strings are modelled as `List Char` where scanning matters.  Python's
`re` replacement-template semantics are modelled faithfully: in
`BRACES_REGEX.sub(r'\0\0', s)` the `\0` escapes are octal escapes for the
NUL character (CPython `re` template rules), so each maximal run of
braces is replaced by two NUL characters.  The third-party `parse`
module is modelled by a tokenizer (`\x7b\x7d` is an anonymous field,
doubled braces are literals) and a lazy (non-greedy, case-insensitive,
full-anchored) backtracking matcher, per that library's documented
defaults.  Exceptions are modelled as explicit error values paired with
the state as mutated up to the raise point.
-/

namespace Atticus

/-- Characters matched by the regex class `[\w\d]` of VAR_REGEX
(ASCII model of Python's `\w`). -/
def isWordChar (c : Char) : Bool := c.isAlphanum || c = '_'

def isBrace (c : Char) : Bool := c = '\x7b' || c = '\x7d'

/-- The NUL character produced by the `\0` octal escapes in the
replacement template of `_escape_curly_braces`. -/
def nulChar : Char := '\x00'

/-- The scanning state of `escapeBraces`: `some c` when the previous
character belonged to a still-open run of the brace `c`. -/
def escapeAux : Option Char → List Char → List Char
  | _, [] => []
  | prev, c :: cs =>
    if isBrace c then
      if prev = some c then escapeAux prev cs
      else nulChar :: nulChar :: escapeAux (some c) cs
    else c :: escapeAux none cs

/-- `_escape_curly_braces` = `BRACES_REGEX.sub(r'\0\0', string)`:
each maximal run of identical brace characters (`\x7b+|\x7d+`) is
replaced by the two NUL characters denoted by the octal escapes `\0\0`
(see `escapeBraces_brace` for the run-based unfolding). -/
def escapeBraces (l : List Char) : List Char := escapeAux none l

/-- What the spec (and the code's own docstring) say `_escape_curly_braces`
does: each maximal run of braces is doubled, which is the same as
doubling every individual brace character.  Used only to compare the
source behaviour against the specified behaviour. -/
def escapeBracesSpec : List Char → List Char
  | [] => []
  | c :: cs =>
    if isBrace c then c :: c :: escapeBracesSpec cs
    else c :: escapeBracesSpec cs

/-- Attempt of VAR_REGEX `\$\(([\w\d]+)\)` at the head of the list.
Returns the captured variable name and the remainder after the match. -/
def varAt (l : List Char) : Option (List Char × List Char) :=
  match l with
  | a :: b :: r =>
    if a = '$' && b = '(' then
      let name := r.takeWhile isWordChar
      if name.isEmpty then none
      else if (r.drop name.length).head? = some ')' then
        some (name, r.drop (name.length + 1))
      else none
    else none
  | _ => none

theorem varAt_length {l nm rest : List Char} (h : varAt l = some (nm, rest)) :
    rest.length < l.length := by
  match l with
  | [] => simp [varAt] at h
  | [a] => simp [varAt] at h
  | a :: b :: r =>
    simp only [varAt] at h
    split at h
    · split at h
      · exact absurd h (by simp)
      · split at h
        · have := List.length_drop (r.takeWhile isWordChar).length.succ r
          simp only [Option.some.injEq, Prod.mk.injEq] at h
          rw [← h.2]
          simp only [List.length_cons, List.length_drop]
          omega
        · exact absurd h (by simp)
    · exact absurd h (by simp)

/-- Fuelled worker for `subVars`; `varAt_length` shows the fuel
`l.length` always suffices. -/
def subVarsF : Nat → List Char → List Char
  | _, [] => []
  | 0, _ :: _ => []
  | fuel + 1, c :: cs =>
    match varAt (c :: cs) with
    | some (_, rest) => '\x7b' :: '\x7d' :: subVarsF fuel rest
    | none => c :: subVarsF fuel cs

/-- `VAR_REGEX.sub(r'\x7b\x7d', s)`: replace every `$(name)` occurrence
with the anonymous replacement field `\x7b\x7d`, scanning left to right. -/
def subVars (l : List Char) : List Char := subVarsF l.length l

/-- Fuelled worker for `parseVarsL`. -/
def parseVarsLF : Nat → List Char → List (List Char)
  | _, [] => []
  | 0, _ :: _ => []
  | fuel + 1, c :: cs =>
    match varAt (c :: cs) with
    | some (nm, rest) => nm :: parseVarsLF fuel rest
    | none => parseVarsLF fuel cs

/-- `VAR_REGEX.findall(s)` (`_parse_variables`): the variable names in
order of appearance, scanning left to right. -/
def parseVarsL (l : List Char) : List (List Char) := parseVarsLF l.length l

/-- `_parse_variables` at the `String` level. -/
def parse_variables (s : String) : List String :=
  (parseVarsL s.data).map (fun l => String.mk l)

/-- A compiled pattern token: a literal character or an anonymous
replacement field (`\x7b\x7d`), shared by the model of `parse.compile`
and of `str.format`. -/
inductive Tok where
  | lit (c : Char)
  | field
deriving DecidableEq

/-- Tokenize a compiled pattern string: `\x7b\x7d` is an anonymous field,
`\x7b\x7b` and `\x7d\x7d` are escaped literal braces, any other brace use
(stray braces, named fields - which this program never produces) is
rejected. -/
def tokAux : Option Char → List Char → Option (List Tok)
  | none, [] => some []
  | some _, [] => none
  | none, c :: cs =>
    if isBrace c then tokAux (some c) cs
    else (tokAux none cs).map (fun ts => Tok.lit c :: ts)
  | some b, c :: cs =>
    if b = '\x7b' ∧ c = '\x7d' then (tokAux none cs).map (fun ts => Tok.field :: ts)
    else if b = c then (tokAux none cs).map (fun ts => Tok.lit b :: ts)
    else none

def tokenize (l : List Char) : Option (List Tok) := tokAux none l

def countFields (ts : List Tok) : Nat := ts.count Tok.field

/-- Case-insensitive character comparison: the `parse` library compiles
its patterns with `re.IGNORECASE` by default. -/
def charIEq (x c : Char) : Bool := x.toLower = c.toLower

/-- The nonempty splits of a list, shortest prefix first (the order in
which a lazy `(.+?)` regex group tries to extend). -/
def splitsNE : List Char → List (List Char × List Char)
  | [] => []
  | x :: xs => ([x], xs) :: (splitsNE xs).map (fun p => (x :: p.1, p.2))

def firstSome {α : Type} : List (Option α) → Option α
  | [] => none
  | some a :: _ => some a
  | none :: rest => firstSome rest

/-- Model of `parse.Parser.parse` on a compiled pattern: anchored at both
ends, each anonymous field matches lazily (shortest span first) and must
consume at least one character, literals match case-insensitively.
Returns the positional field values (`Result.fixed`) on a match. -/
def matchToks : List Tok → List Char → Option (List (List Char))
  | [], [] => some []
  | [], _ :: _ => none
  | Tok.lit _ :: _, [] => none
  | Tok.lit c :: ts, x :: xs => if charIEq x c then matchToks ts xs else none
  | Tok.field :: _, [] => none
  | Tok.field :: ts, x :: xs =>
    firstSome ((splitsNE (x :: xs)).map
      (fun p => (matchToks ts p.2).map (fun vals => p.1 :: vals)))

/-- A Python value as it occurs in the variable store: configuration
initial values are strings or ints, values parsed from requests are
strings. -/
inductive PyVal where
  | s (v : String)
  | i (n : Int)
deriving DecidableEq

/-- How `str.format` renders the value into the response text. -/
def PyVal.format : PyVal → List Char
  | .s v => v.data
  | .i n => (toString n).data

/-- `MockingbirdVar`: declared type tag and current value (the per-value
lock is irrelevant in this sequential model). -/
structure MockingbirdVar where
  var_type : String
  value : PyVal
deriving DecidableEq

/-- The exceptions the modelled code can raise. -/
inductive PyError where
  | undefinedVar (name : String)
  | mockingbirdError
  | keyError
  | attributeError
  | indexError
deriving DecidableEq

deriving instance DecidableEq for Except

/-- A Python dict with insertion order: association list whose `dset`
overwrites in place and otherwise appends. -/
abbrev Dict (α : Type) := List (String × α)

def dlookup {α : Type} : Dict α → String → Option α
  | [], _ => none
  | (k, v) :: d, key => if k = key then some v else dlookup d key

def dcontains {α : Type} (d : Dict α) (key : String) : Bool :=
  (dlookup d key).isSome

def dset {α : Type} : Dict α → String → α → Dict α
  | [], key, v => [(key, v)]
  | (k, w) :: d, key, v =>
    if k = key then (k, v) :: d else (k, w) :: dset d key v

def dkeys {α : Type} (d : Dict α) : List String := d.map Prod.fst

/-- Building a dict from key/value pairs, later pairs overwriting
earlier ones (Python dict comprehension). -/
def dictOfPairs {α : Type} (ps : List (String × α)) : Dict α :=
  ps.foldl (fun d p => dset d p.1 p.2) []

/-- `parse.compile`/`str.format` template compilation of a transformed
pattern string.  `tokenize` provably succeeds on every string produced
by the transformation functions (see `tokenize_subVars`), so the
default is never reached. -/
def compileToks (l : List Char) : List Tok := (tokenize l).getD []

/-- `MockingbirdRequest` (compiled request/response template). -/
structure MockingbirdRequest where
  delay : Nat
  raw_request : String
  request_toks : List Tok
  req_vars : List String
  raw_response : Option String
  response_fmt : Option (List Tok)
  resp_vars : List String
deriving DecidableEq

/-- `MockingbirdRequest.__init__`: both `_transform_parse_syntax` and
`_transform_formatter_syntax` escape braces and then replace each
`$(name)` with an anonymous field, collecting the names from the raw
string. -/
def mkMockingbirdRequest (raw_req : String) (raw_resp : Option String) :
    MockingbirdRequest :=
  { delay := 0
    raw_request := raw_req
    request_toks := compileToks (subVars (escapeBraces raw_req.data))
    req_vars := (parseVarsL raw_req.data).map (fun l => String.mk l)
    raw_response := raw_resp
    response_fmt := raw_resp.map (fun p => compileToks (subVars (escapeBraces p.data)))
    resp_vars :=
      match raw_resp with
      | some p => (parseVarsL p.data).map (fun l => String.mk l)
      | none => [] }

/-- `MockingbirdRequest.parse`: `None` if the input does not conform;
raises `MockingbirdError` if the number of parsed positional values
differs from the number of declared variable names; otherwise the dict
of names to values (later duplicate names overwrite earlier ones). -/
def MockingbirdRequest.parse (r : MockingbirdRequest) (request : String) :
    Except PyError (Option (Dict PyVal)) :=
  match matchToks r.request_toks request.data with
  | none => .ok none
  | some vals =>
    if r.req_vars.length ≠ vals.length then .error .mockingbirdError
    else .ok (some (dictOfPairs (r.req_vars.zip (vals.map (fun v => PyVal.s (String.mk v))))))

/-- The list comprehension `[mb_vars[resp_var].value for ...]`: raises
`KeyError` on an unknown name. -/
def lookupVals (mb_vars : Dict MockingbirdVar) : List String → Except PyError (List PyVal)
  | [] => .ok []
  | v :: vs =>
    match dlookup mb_vars v with
    | none => .error .keyError
    | some mv => (lookupVals mb_vars vs).map (fun rest => mv.value :: rest)

/-- `str.format(*vals)` on a compiled template: fields consume the
positional values in order; too few values raises `IndexError`; extra
values are ignored. -/
def renderToks : List Tok → List PyVal → Except PyError (List Char)
  | [], _ => .ok []
  | Tok.lit c :: ts, vals => (renderToks ts vals).map (fun r => c :: r)
  | Tok.field :: _, [] => .error .indexError
  | Tok.field :: ts, v :: vals => (renderToks ts vals).map (fun r => v.format ++ r)

/-- `MockingbirdRequest.build_response`. -/
def MockingbirdRequest.build_response (r : MockingbirdRequest)
    (mb_vars : Dict MockingbirdVar) : Except PyError (Option String) :=
  match r.response_fmt with
  | none => .ok none
  | some fmt =>
    match lookupVals mb_vars r.resp_vars with
    | .error e => .error e
    | .ok vals =>
      match renderToks fmt vals with
      | .error e => .error e
      | .ok out => .ok (some (String.mk out))

/-- The `Mockingbird` state: variable store, per-interface template
lists, per-interface default responses, and the response priority
queue of `(respond_time, interface, key, request)` entries. -/
structure Mockingbird where
  mb_vars : Dict MockingbirdVar
  requests : Dict (List MockingbirdRequest)
  default_responses : Dict MockingbirdRequest
  response_queue : List (Nat × String × String × MockingbirdRequest)
deriving DecidableEq

/-- `Mockingbird.__init__`: the variable store from the configured
variables `(name, type, initial value)`, one empty template list per
configured interface, no defaults, empty response queue. -/
def mkMockingbird (vars : List (String × String × PyVal))
    (interfaces : List String) : Mockingbird :=
  { mb_vars := vars.foldl (fun d v => dset d v.1 ⟨v.2.1, v.2.2⟩) []
    requests := interfaces.foldl (fun d n => dset d n []) []
    default_responses := []
    response_queue := [] }

/-- First variable of the list missing from the store, if any
(`_verify_vars_defined` raises on the first undefined variable). -/
def firstUndefinedVar (mb_vars : Dict MockingbirdVar) : List String → Option String
  | [] => none
  | v :: vs =>
    if dcontains mb_vars v then firstUndefinedVar mb_vars vs else some v

/-- `Mockingbird._verify_vars_defined`. -/
def Mockingbird.verify_vars_defined (st : Mockingbird) (raw : String) :
    Option PyError :=
  (firstUndefinedVar st.mb_vars (parse_variables raw)).map PyError.undefinedVar

/-- `Mockingbird._create_request`: verify the request pattern, then the
response pattern when present, then build the template. -/
def Mockingbird.create_request (st : Mockingbird) (raw_req : String)
    (raw_resp : Option String) : Except PyError MockingbirdRequest :=
  match st.verify_vars_defined raw_req with
  | some e => .error e
  | none =>
    match raw_resp with
    | some p =>
      match st.verify_vars_defined p with
      | some e => .error e
      | none => .ok (mkMockingbirdRequest raw_req raw_resp)
    | none => .ok (mkMockingbirdRequest raw_req raw_resp)

/-- `Mockingbird._register_request`.  The malformed-registration check
is Python truthiness: `if raw_req and raw_resp is None`, so it fires
only for a *nonempty* request string with a `None` response. -/
def Mockingbird.register_request (st : Mockingbird) (interface : String)
    (raw_req raw_resp : Option String) : Option PyError × Mockingbird :=
  if (raw_req.getD "") ≠ "" ∧ raw_resp = none then (none, st)
  else
    match raw_req with
    | none =>
      match st.create_request "" raw_resp with
      | .error e => (some e, st)
      | .ok req =>
        (none, { st with default_responses := dset st.default_responses interface req })
    | some r =>
      match st.create_request r raw_resp with
      | .error e => (some e, st)
      | .ok req =>
        match dlookup st.requests interface with
        | none => (some .keyError, st)
        | some l =>
          (none, { st with requests := dset st.requests interface (l ++ [req]) })

/-- The matching loop of `Mockingbird._request`: first template whose
`parse` succeeds, with its extracted values; a raised `MockingbirdError`
propagates. -/
def findFirstMatch (reqs : List MockingbirdRequest) (request : String) :
    Except PyError (Option (MockingbirdRequest × Dict PyVal)) :=
  match reqs with
  | [] => .ok none
  | r :: rs =>
    match r.parse request with
    | .error e => .error e
    | .ok none => findFirstMatch rs request
    | .ok (some m) => .ok (some (r, m))

/-- `for mb_var, val in val_map.items(): self._mb_vars[mb_var].value = val`:
sets values one by one; a missing name raises `KeyError`, keeping the
updates already made. -/
def setVarsLoop : Dict MockingbirdVar → List (String × PyVal) →
    Option PyError × Dict MockingbirdVar
  | vars, [] => (none, vars)
  | vars, (k, v) :: rest =>
    match dlookup vars k with
    | none => (some .keyError, vars)
    | some mv => setVarsLoop (dset vars k { mv with value := v }) rest

/-- `Mockingbird._request`.  `random.shuffle` permutes the stored list
in place; the nondeterministic outcome is passed in as `shuffled` (the
theorems constrain it to be a permutation of the stored list).  On an
exception the returned state holds the mutations made up to the raise
point. -/
def Mockingbird.request (st : Mockingbird) (interface key req_text : String)
    (now : Nat) (shuffled : List MockingbirdRequest) :
    Option PyError × Mockingbird :=
  match dlookup st.requests interface with
  | none => (some .keyError, st)
  | some _ =>
    let st1 : Mockingbird := { st with requests := dset st.requests interface shuffled }
    match findFirstMatch shuffled req_text with
    | .error e => (some e, st1)
    | .ok found =>
      let matching : Option MockingbirdRequest :=
        match found with
        | some (r, _) => some r
        | none => dlookup st1.default_responses interface
      let setRes := match found with
        | some (_, m) => setVarsLoop st1.mb_vars m
        | none => (none, st1.mb_vars)
      let st2 : Mockingbird := { st1 with mb_vars := setRes.2 }
      match setRes.1 with
      | some e => (some e, st2)
      | none =>
        match matching with
        | none => (some .attributeError, st2)
        | some r =>
          (none, { st2 with
            response_queue := st2.response_queue ++ [(now + r.delay, interface, key, r)] })

/-- Pop of the response priority queue: leftmost entry of minimal
respond time. -/
def popMin : List (Nat × String × String × MockingbirdRequest) →
    Option ((Nat × String × String × MockingbirdRequest) ×
      List (Nat × String × String × MockingbirdRequest))
  | [] => none
  | e :: es =>
    match popMin es with
    | none => some (e, [])
    | some (m, rest) => if e.1 ≤ m.1 then some (e, es) else some (m, e :: rest)

/-- One iteration of `Mockingbird._respond_loop`: pop the earliest-due
entry (nothing happens when the queue is empty), look up the entry's
interface reply queue, build the response from the current variable
store, and emit `(interface, key, response)`. -/
def Mockingbird.respond_once (st : Mockingbird) :
    Option PyError × Mockingbird × Option (String × String × Option String) :=
  match popMin st.response_queue with
  | none => (none, st, none)
  | some (e, rest) =>
    let st1 : Mockingbird := { st with response_queue := rest }
    match dlookup st1.requests e.2.1 with
    | none => (some .keyError, st1, none)
    | some _ =>
      match e.2.2.2.build_response st1.mb_vars with
      | .error err => (some err, st1, none)
      | .ok resp => (none, st1, some (e.2.1, e.2.2.1, resp))

/-- `MockingbirdProcess.Status`. -/
inductive PStatus where
  | STOPPED
  | RUNNING
deriving DecidableEq

def PStatus.name : PStatus → String
  | .STOPPED => "STOPPED"
  | .RUNNING => "RUNNING"

/-- `MockingbirdProcess`, reduced to its status (the OS process and the
stop event are external effects). -/
structure MockingbirdProcess where
  status : PStatus
deriving DecidableEq

/-- `MockingbirdProcess.start`: no-op when already running. -/
def MockingbirdProcess.start (p : MockingbirdProcess) : MockingbirdProcess :=
  if p.status = .RUNNING then p else { status := .RUNNING }

/-- `MockingbirdProcess.stop`: no-op when already stopped. -/
def MockingbirdProcess.stop (p : MockingbirdProcess) : MockingbirdProcess :=
  if p.status = .STOPPED then p else { status := .STOPPED }

/-- The Atticus API errors relevant to the modelled calls. -/
inductive ApiError where
  | notFound (n : String)
  | running (n : String)
  | notRunning (n : String)
deriving DecidableEq

/-- `Atticus`: the map of loaded mockingbird processes. -/
structure Atticus where
  mb_procs : Dict MockingbirdProcess
deriving DecidableEq

/-- `Atticus.start`. -/
def Atticus.start (a : Atticus) (name : String) : Option ApiError × Atticus :=
  match dlookup a.mb_procs name with
  | none => (some (.notFound name), a)
  | some p =>
    if p.status = .RUNNING then (some (.running name), a)
    else (none, { mb_procs := dset a.mb_procs name p.start })

/-- `Atticus.stop`. -/
def Atticus.stop (a : Atticus) (name : String) : Option ApiError × Atticus :=
  match dlookup a.mb_procs name with
  | none => (some (.notFound name), a)
  | some p =>
    if p.status ≠ .RUNNING then (some (.notRunning name), a)
    else (none, { mb_procs := dset a.mb_procs name p.stop })

/-- The loop body of `Atticus.status`: raises `MockingbirdNotFound` at
the first name that is not loaded, otherwise accumulates the statuses
dict. -/
def statusLoop (procs : Dict MockingbirdProcess) :
    List String → Dict String → Except ApiError (Dict String)
  | [], acc => .ok acc
  | n :: ns, acc =>
    match dlookup procs n with
    | none => .error (.notFound n)
    | some p => statusLoop procs ns (dset acc n p.status.name)

/-- `Atticus.status(*args)`: with no names, report every loaded
mockingbird; otherwise exactly the requested names. -/
def Atticus.status (a : Atticus) (args : List String) :
    Except ApiError (Dict String) :=
  let names := if args.isEmpty then dkeys a.mb_procs else args
  statusLoop a.mb_procs names []

/-! ### Concrete states used by the scenario theorems -/

/-- A device with variables `x` and `y` and one interface, as in the
variable-persistence scenario. -/
def coordMb0 : Mockingbird :=
  mkMockingbird [("x", "int", PyVal.i 0), ("y", "int", PyVal.i 0)] ["tcp"]

def setTemplate : MockingbirdRequest :=
  mkMockingbirdRequest "set coordinates $(x) $(y)" (some "$(x) $(y)")

def getTemplate : MockingbirdRequest :=
  mkMockingbirdRequest "get coordinates" (some "$(x) $(y)")

/-- The device after registering the two persistence-scenario
templates. -/
def coordMb : Mockingbird :=
  ((coordMb0.register_request "tcp" (some "set coordinates $(x) $(y)")
        (some "$(x) $(y)")).2.register_request "tcp" (some "get coordinates")
      (some "$(x) $(y)")).2

/-- A device with one registered template and no default response. -/
def c3Mb : Mockingbird :=
  ((mkMockingbird [] ["tcp"]).register_request "tcp" (some "a") (some "b")).2

/-- A device with no variables and an empty template list. -/
def c6Mb : Mockingbird := mkMockingbird [] ["tcp"]

def tmplA : MockingbirdRequest := mkMockingbirdRequest "a" (some "1")

def tmplB : MockingbirdRequest := mkMockingbirdRequest "b" (some "2")

/-- A device with two registered templates, for the shuffle frame
scenario. -/
def c7Mb : Mockingbird :=
  (((mkMockingbird [] ["tcp"]).register_request "tcp" (some "a")
        (some "1")).2.register_request "tcp" (some "b") (some "2")).2

/-- A control API with one running and one stopped device. -/
def atticusPair : Atticus :=
  { mb_procs := [("dev1", { status := PStatus.RUNNING }),
                 ("dev2", { status := PStatus.STOPPED })] }

/-- The request pattern with literal braces from the round-trip example
(`\x7b\x7b\x7d\x7dunits \x7b\x7b\x7b\x7d\x7d\x7b\x7d\x7d $(unit)\x7b\x7d\x7d`). -/
def bracePattern : String :=
  "\x7b\x7b\x7d\x7dunits \x7b\x7b\x7b\x7d\x7d\x7b\x7d\x7d $(unit)\x7b\x7d\x7d"

/-- The matching incoming request of the round-trip example, with the
variable replaced by `5`. -/
def braceRequest : String :=
  "\x7b\x7b\x7d\x7dunits \x7b\x7b\x7b\x7d\x7d\x7b\x7d\x7d 5\x7b\x7d\x7d"

/-! ### Dictionary lemmas -/

theorem dlookup_dset_self {α : Type} (d : Dict α) (k : String) (v : α) :
    dlookup (dset d k v) k = some v := by
  induction d with
  | nil => simp [dset, dlookup]
  | cons p d ih =>
    by_cases h : p.1 = k
    · simp [dset, dlookup, h]
    · simp [dset, dlookup, h, ih]

theorem dlookup_dset_ne {α : Type} (d : Dict α) {k k' : String} (v : α)
    (h : k ≠ k') : dlookup (dset d k v) k' = dlookup d k' := by
  induction d with
  | nil => simp [dset, dlookup, h]
  | cons p d ih =>
    by_cases hp : p.1 = k
    · simp [dset, dlookup, hp, h]
    · simp [dset, dlookup, hp, ih]

theorem dkeys_dset_of_lookup_some {α : Type} {d : Dict α} {k : String}
    (v : α) (h : (dlookup d k).isSome) : dkeys (dset d k v) = dkeys d := by
  induction d with
  | nil => simp [dlookup] at h
  | cons p d ih =>
    by_cases hp : p.1 = k
    · simp [dset, dkeys, hp]
    · simp [dlookup, hp] at h
      simp [dset, dkeys, hp] at ih ⊢
      exact ih h

theorem dset_of_lookup_none {α : Type} {d : Dict α} {k : String} (v : α)
    (h : dlookup d k = none) : dset d k v = d ++ [(k, v)] := by
  induction d with
  | nil => simp [dset]
  | cons p d ih =>
    by_cases hp : p.1 = k
    · simp [dlookup, hp] at h
    · simp [dlookup, hp] at h
      simp [dset, hp, ih h]

theorem dlookup_append {α : Type} (d₁ d₂ : Dict α) (k : String) :
    dlookup (d₁ ++ d₂) k =
      match dlookup d₁ k with
      | some v => some v
      | none => dlookup d₂ k := by
  induction d₁ with
  | nil => simp [dlookup]
  | cons p d ih =>
    by_cases hp : p.1 = k
    · simp [dlookup, hp]
    · simp [dlookup, hp, ih]

theorem dlookup_foldl_dset {α : Type} (ps : List (String × α)) (d : Dict α)
    (k : String) :
    dlookup (ps.foldl (fun d p => dset d p.1 p.2) d) k =
      match ps.reverse.find? (fun p => p.1 = k) with
      | some p => some p.2
      | none => dlookup d k := by
  induction ps generalizing d with
  | nil => simp
  | cons p ps ih =>
    rw [List.foldl_cons, ih, List.reverse_cons, List.find?_append]
    cases hf : ps.reverse.find? (fun q => q.1 = k) with
    | some q => simp [Option.or]
    | none =>
      by_cases hp : p.1 = k
      · subst hp
        simp [List.find?, dlookup_dset_self, Option.or]
      · simp [List.find?, hp, dlookup_dset_ne _ _ hp, Option.or]

/-- Later duplicate keys overwrite earlier ones in a dict built from
pairs: the lookup returns the value of the last (rightmost)
occurrence of the key. -/
theorem dlookup_dictOfPairs {α : Type} (ps : List (String × α)) (k : String) :
    dlookup (dictOfPairs ps) k =
      (ps.reverse.find? (fun p => p.1 = k)).map Prod.snd := by
  rw [dictOfPairs, dlookup_foldl_dset]
  cases ps.reverse.find? (fun p => p.1 = k) <;> simp [dlookup]

theorem dlookup_of_mem_of_nodup {α : Type} {d : Dict α} {p : String × α}
    (hmem : p ∈ d) (hnd : (dkeys d).Nodup) : dlookup d p.1 = some p.2 := by
  induction d with
  | nil => simp at hmem
  | cons q d ih =>
    simp only [dkeys, List.map_cons, List.nodup_cons] at hnd
    rcases List.mem_cons.mp hmem with h | h
    · subst h
      simp [dlookup]
    · have hne : q.1 ≠ p.1 := by
        intro he
        exact hnd.1 (he ▸ List.mem_map_of_mem Prod.fst h)
      simp [dlookup, hne, ih h hnd.2]

/-! ### Scanner unfolding lemmas -/

theorem escapeBraces_nil : escapeBraces [] = [] := rfl

theorem subVars_nil : subVars [] = [] := rfl

theorem parseVarsL_nil : parseVarsL [] = [] := rfl

theorem escapeAux_run {c : Char} (hc : isBrace c = true) :
    ∀ (cs : List Char), escapeAux (some c) cs = escapeBraces (cs.dropWhile (· = c)) := by
  intro cs
  induction cs with
  | nil => rfl
  | cons d ds ih =>
    rw [List.dropWhile_cons]
    by_cases hd : d = c
    · subst hd
      rw [if_pos (by simp), ← ih]
      simp [escapeAux, hc]
    · rw [if_neg (by simp [hd])]
      show escapeAux (some c) (d :: ds) = escapeBraces (d :: ds)
      by_cases hb : isBrace d
      · have hne : ¬ ((some c : Option Char) = some d) := by
          simp
          exact fun he => hd he.symm
        simp [escapeAux, escapeBraces, hb, hne]
      · simp [escapeAux, escapeBraces, hb]

theorem escapeBraces_brace {c : Char} (cs : List Char) (h : isBrace c = true) :
    escapeBraces (c :: cs) =
      nulChar :: nulChar :: escapeBraces (cs.dropWhile (· = c)) := by
  rw [← escapeAux_run h]
  simp [escapeBraces, escapeAux, h]

theorem escapeBraces_not_brace {c : Char} (cs : List Char)
    (h : isBrace c = false) : escapeBraces (c :: cs) = c :: escapeBraces cs := by
  simp [escapeBraces, escapeAux, h]

theorem subVarsF_fuel :
    ∀ (fuel fuel' : Nat) (l : List Char), l.length ≤ fuel → l.length ≤ fuel' →
      subVarsF fuel l = subVarsF fuel' l := by
  intro fuel
  induction fuel with
  | zero =>
    intro fuel' l hl _
    have hnil : l = [] := List.eq_nil_of_length_eq_zero (Nat.le_zero.mp hl)
    subst hnil
    cases fuel' <;> rfl
  | succ n ih =>
    intro fuel' l hl hl'
    cases l with
    | nil => cases fuel' <;> rfl
    | cons c cs =>
      cases fuel' with
      | zero => simp at hl'
      | succ m =>
        simp only [subVarsF]
        cases hv : varAt (c :: cs) with
        | some p =>
          obtain ⟨nm, rest⟩ := p
          have hr := varAt_length hv
          simp only [List.length_cons] at hl hl' hr
          dsimp only
          rw [ih m rest (by omega) (by omega)]
        | none =>
          simp only [List.length_cons] at hl hl'
          dsimp only
          rw [ih m cs (by omega) (by omega)]

theorem parseVarsLF_fuel :
    ∀ (fuel fuel' : Nat) (l : List Char), l.length ≤ fuel → l.length ≤ fuel' →
      parseVarsLF fuel l = parseVarsLF fuel' l := by
  intro fuel
  induction fuel with
  | zero =>
    intro fuel' l hl _
    have hnil : l = [] := List.eq_nil_of_length_eq_zero (Nat.le_zero.mp hl)
    subst hnil
    cases fuel' <;> rfl
  | succ n ih =>
    intro fuel' l hl hl'
    cases l with
    | nil => cases fuel' <;> rfl
    | cons c cs =>
      cases fuel' with
      | zero => simp at hl'
      | succ m =>
        simp only [parseVarsLF]
        cases hv : varAt (c :: cs) with
        | some p =>
          obtain ⟨nm, rest⟩ := p
          have hr := varAt_length hv
          simp only [List.length_cons] at hl hl' hr
          dsimp only
          rw [ih m rest (by omega) (by omega)]
        | none =>
          simp only [List.length_cons] at hl hl'
          dsimp only
          rw [ih m cs (by omega) (by omega)]

theorem subVars_cons_some {c : Char} {cs nm rest : List Char}
    (h : varAt (c :: cs) = some (nm, rest)) :
    subVars (c :: cs) = '\x7b' :: '\x7d' :: subVars rest := by
  have hr := varAt_length h
  simp only [List.length_cons] at hr
  show subVarsF (c :: cs).length (c :: cs) = '\x7b' :: '\x7d' :: subVarsF rest.length rest
  simp only [List.length_cons, subVarsF, h]
  rw [subVarsF_fuel cs.length rest.length rest (by omega) le_rfl]

theorem subVars_cons_none {c : Char} {cs : List Char}
    (h : varAt (c :: cs) = none) : subVars (c :: cs) = c :: subVars cs := by
  show subVarsF (c :: cs).length (c :: cs) = c :: subVarsF cs.length cs
  simp only [List.length_cons, subVarsF, h]

theorem parseVarsL_cons_some {c : Char} {cs nm rest : List Char}
    (h : varAt (c :: cs) = some (nm, rest)) :
    parseVarsL (c :: cs) = nm :: parseVarsL rest := by
  have hr := varAt_length h
  simp only [List.length_cons] at hr
  show parseVarsLF (c :: cs).length (c :: cs) = nm :: parseVarsLF rest.length rest
  simp only [List.length_cons, parseVarsLF, h]
  rw [parseVarsLF_fuel cs.length rest.length rest (by omega) le_rfl]

theorem parseVarsL_cons_none {c : Char} {cs : List Char}
    (h : varAt (c :: cs) = none) : parseVarsL (c :: cs) = parseVarsL cs := by
  show parseVarsLF (c :: cs).length (c :: cs) = parseVarsLF cs.length cs
  simp only [List.length_cons, parseVarsLF, h]

theorem varAt_not_dollar {c : Char} {cs : List Char} (h : ¬ c = '$') :
    varAt (c :: cs) = none := by
  cases cs with
  | nil => rfl
  | cons b r => simp [varAt, h]

theorem tokenize_not_brace {c : Char} (r : List Char) (h : isBrace c = false) :
    tokenize (c :: r) = (tokenize r).map (fun ts => Tok.lit c :: ts) := by
  simp [tokenize, tokAux, h]

theorem tokenize_field_cons (w : List Char) :
    tokenize ('\x7b' :: '\x7d' :: w) = (tokenize w).map (fun ts => Tok.field :: ts) := rfl

/-! ### The matcher produces one value per field -/

theorem firstSome_mem {α : Type} :
    ∀ {l : List (Option α)} {v : α}, firstSome l = some v → some v ∈ l := by
  intro l
  induction l with
  | nil => intro v h; simp [firstSome] at h
  | cons o rest ih =>
    intro v h
    cases o with
    | some a =>
      simp only [firstSome] at h
      simp [h]
    | none =>
      simp only [firstSome] at h
      exact List.mem_cons_of_mem _ (ih h)

/-- When the matcher matches, it returns exactly one positional value
per anonymous field of the compiled pattern. -/
theorem matchToks_length :
    ∀ (ts : List Tok) (xs : List Char) (vals : List (List Char)),
      matchToks ts xs = some vals → vals.length = countFields ts := by
  intro ts
  induction ts with
  | nil =>
    intro xs vals h
    cases xs with
    | nil =>
      simp only [matchToks, Option.some.injEq] at h
      simp [← h, countFields]
    | cons x xs => simp [matchToks] at h
  | cons t ts ih =>
    intro xs vals h
    cases t with
    | lit c =>
      cases xs with
      | nil => simp [matchToks] at h
      | cons x xs =>
        simp only [matchToks] at h
        split at h
        · rw [ih xs vals h, countFields, countFields,
            List.count_cons_of_ne (by simp)]
        · simp at h
    | field =>
      cases xs with
      | nil => simp [matchToks] at h
      | cons x xs =>
        simp only [matchToks] at h
        have hmem := firstSome_mem h
        simp only [List.mem_map] at hmem
        obtain ⟨p, _, hp⟩ := hmem
        cases hv : matchToks ts p.2 with
        | none => rw [hv] at hp; simp at hp
        | some vals' =>
          rw [hv] at hp
          simp only [Option.map, Option.some.injEq] at hp
          rw [← hp, List.length_cons, ih _ _ hv, countFields, countFields,
            List.count_cons_self]

/-! ### Brace escaping and variable scanning commute -/

theorem escapeBraces_no_brace_aux :
    ∀ (n : Nat) (l : List Char), l.length ≤ n →
      ∀ c ∈ escapeBraces l, isBrace c = false := by
  intro n
  induction n with
  | zero =>
    intro l hl
    have hnil : l = [] := List.eq_nil_of_length_eq_zero (Nat.le_zero.mp hl)
    subst hnil
    simp [escapeBraces_nil]
  | succ n ih =>
    intro l hl
    cases l with
    | nil => simp [escapeBraces_nil]
    | cons c cs =>
      by_cases hb : isBrace c
      · rw [escapeBraces_brace _ hb]
        intro d hd
        simp only [List.mem_cons] at hd
        rcases hd with rfl | rfl | hd
        · decide
        · decide
        · have h1 : (cs.dropWhile (· = c)).length ≤ cs.length :=
            (List.dropWhile_suffix _).sublist.length_le
          simp only [List.length_cons] at hl
          exact ih (cs.dropWhile (· = c)) (by omega) d hd
      · rw [escapeBraces_not_brace _ (by simpa using hb)]
        intro d hd
        simp only [List.mem_cons] at hd
        rcases hd with rfl | hd
        · simpa using hb
        · simp only [List.length_cons] at hl
          exact ih cs (by omega) d hd

theorem escapeBraces_no_brace :
    ∀ (l : List Char), ∀ c ∈ escapeBraces l, isBrace c = false :=
  fun l => escapeBraces_no_brace_aux l.length l le_rfl

theorem escapeBraces_append {m : List Char} (rest : List Char)
    (h : ∀ c ∈ m, isBrace c = false) :
    escapeBraces (m ++ rest) = m ++ escapeBraces rest := by
  induction m with
  | nil => simp
  | cons c m ih =>
    rw [List.cons_append, escapeBraces_not_brace _ (h c (by simp)),
      ih (fun d hd => h d (List.mem_cons_of_mem _ hd)), List.cons_append]

theorem escapeBraces_ne_nil (c : Char) (cs : List Char) :
    escapeBraces (c :: cs) ≠ [] := by
  by_cases hc : isBrace c
  · rw [escapeBraces_brace _ hc]; simp
  · rw [escapeBraces_not_brace _ (by simpa using hc)]; simp

theorem isWordChar_not_brace {c : Char} (h : isWordChar c = true) :
    isBrace c = false := by
  by_cases h1 : c = '\x7b'
  · subst h1; exact absurd h (by decide)
  · by_cases h2 : c = '\x7d'
    · subst h2; exact absurd h (by decide)
    · simp [isBrace, h1, h2]

theorem drop_takeWhile_length (p : Char → Bool) :
    ∀ (r : List Char), r.drop (r.takeWhile p).length = r.dropWhile p := by
  intro r
  induction r with
  | nil => simp
  | cons c r ih =>
    by_cases hc : p c
    · simp [List.takeWhile_cons, List.dropWhile_cons, hc, ih]
    · simp [List.takeWhile_cons, List.dropWhile_cons, hc]

theorem takeWhile_append_of_all {p : Char → Bool} {m : List Char}
    (rest : List Char) (h : ∀ c ∈ m, p c = true) :
    (m ++ rest).takeWhile p = m ++ rest.takeWhile p := by
  induction m with
  | nil => simp
  | cons c m ih =>
    rw [List.cons_append, List.takeWhile_cons, if_pos (h c (by simp)),
      ih (fun d hd => h d (List.mem_cons_of_mem _ hd)), List.cons_append]

/-- Head of the escape of a word-scan remainder is never a word
character. -/
theorem escape_dropWhile_head_not_word (t : List Char)
    (ht : ∀ x, t.head? = some x → isWordChar x = false) :
    (escapeBraces t).takeWhile isWordChar = [] := by
  cases t with
  | nil => rw [escapeBraces_nil]; simp
  | cons d t' =>
    have hd : isWordChar d = false := ht d rfl
    by_cases hb : isBrace d
    · rw [escapeBraces_brace _ hb, List.takeWhile_cons, if_neg (by decide)]
    · rw [escapeBraces_not_brace _ (by simpa using hb), List.takeWhile_cons, if_neg (by simp [hd])]

/-- Brace escaping commutes with a VAR_REGEX match attempt: the escape
neither creates nor destroys a `$(name)` occurrence, and maps the
remainder through the escape. -/
theorem varAt_escape (l : List Char) :
    varAt (escapeBraces l) = (varAt l).map (fun p => (p.1, escapeBraces p.2)) := by
  cases l with
  | nil => rfl
  | cons c cs =>
    by_cases hdollar : c = '$'
    · subst hdollar
      rw [escapeBraces_not_brace _ (by decide)]
      cases cs with
      | nil => rfl
      | cons b r =>
        by_cases hparen : b = '('
        · subst hparen
          rw [escapeBraces_not_brace _ (by decide)]
          -- both sides scan the same name prefix
          have hword : ∀ c ∈ r.takeWhile isWordChar, isWordChar c = true :=
            fun _ hc => List.mem_takeWhile_imp hc
          have hnb : ∀ c ∈ r.takeWhile isWordChar, isBrace c = false :=
            fun c hc => isWordChar_not_brace (hword c hc)
          have hsplit : r.takeWhile isWordChar ++ r.dropWhile isWordChar = r :=
            List.takeWhile_append_dropWhile _ _
          have hE : escapeBraces r =
              r.takeWhile isWordChar ++ escapeBraces (r.dropWhile isWordChar) := by
            conv_lhs => rw [← hsplit]
            exact escapeBraces_append _ hnb
          have hdrop_head : ∀ x, (r.dropWhile isWordChar).head? = some x →
              isWordChar x = false := by
            intro x hx
            have := List.head?_dropWhile_not isWordChar r
            rw [hx] at this
            exact this
          have htake : (escapeBraces r).takeWhile isWordChar = r.takeWhile isWordChar := by
            rw [hE, takeWhile_append_of_all _ hword,
              escape_dropWhile_head_not_word _ hdrop_head, List.append_nil]
          have hdropE : (escapeBraces r).drop (r.takeWhile isWordChar).length =
              escapeBraces (r.dropWhile isWordChar) := by
            rw [hE]
            have : (r.takeWhile isWordChar).length =
                (r.takeWhile isWordChar).length := rfl
            exact List.drop_left _ _
          simp only [varAt, Bool.and_self, if_true, htake]
          by_cases hempty : (r.takeWhile isWordChar).isEmpty
          · simp [hempty]
          · simp only [hempty, if_false, Bool.false_eq_true]
            rw [drop_takeWhile_length, hdropE]
            cases ht : r.dropWhile isWordChar with
            | nil =>
              simp [escapeBraces]
              decide
            | cons d t' =>
              by_cases hdp : d = ')'
              · subst hdp
                rw [escapeBraces_not_brace _ (by decide)]
                simp only [List.head?_cons, Option.some.injEq, if_pos rfl]
                have h1 : (escapeBraces r).drop ((r.takeWhile isWordChar).length + 1) =
                    escapeBraces t' := by
                  rw [← List.drop_drop, hdropE, ht,
                    escapeBraces_not_brace _ (by decide)]
                  rfl
                have h2 : r.drop ((r.takeWhile isWordChar).length + 1) = t' := by
                  rw [← List.drop_drop, drop_takeWhile_length, ht]
                  rfl
                rw [h1, h2]
                simp
              · have hne : escapeBraces (d :: t') = [] → False :=
                  fun hh => escapeBraces_ne_nil d t' hh
                have hhead : ∀ x, (escapeBraces (d :: t')).head? = some x → x ≠ ')' := by
                  intro x hx
                  by_cases hb : isBrace d
                  · rw [escapeBraces_brace _ hb] at hx
                    simp only [List.head?_cons, Option.some.injEq] at hx
                    subst hx
                    decide
                  · rw [escapeBraces_not_brace _ (by simpa using hb)] at hx
                    simp only [List.head?_cons, Option.some.injEq] at hx
                    subst hx
                    exact hdp
                cases hEx : (escapeBraces (d :: t')).head? with
                | none =>
                  simp only [hEx, List.head?_cons]
                  simp [hdp]
                | some x =>
                  have := hhead x hEx
                  simp only [hEx, List.head?_cons]
                  simp only [Option.some.injEq]
                  rw [if_neg this, if_neg hdp]
                  simp
        · -- '$' not followed by '(' : no match on either side
          have hR : varAt ('$' :: b :: r) = none := by
            simp [varAt, hparen]
          rw [hR]
          by_cases hb : isBrace b
          · rw [escapeBraces_brace _ hb]
            simp [varAt, nulChar]
          · rw [escapeBraces_not_brace _ (by simpa using hb)]
            simp [varAt, hparen]
    · -- head is not '$' : no match on either side
      rw [varAt_not_dollar hdollar]
      by_cases hb : isBrace c
      · rw [escapeBraces_brace _ hb]
        exact varAt_not_dollar (by decide)
      · rw [escapeBraces_not_brace _ (by simpa using hb)]
        exact varAt_not_dollar hdollar

theorem tokenize_nil : tokenize [] = some [] := rfl

theorem varAt_rest_mem {l nm rest : List Char} (h : varAt l = some (nm, rest)) :
    ∀ c ∈ rest, c ∈ l := by
  match l with
  | [] => simp [varAt] at h
  | [a] => simp [varAt] at h
  | a :: b :: r =>
    simp only [varAt] at h
    split at h
    · split at h
      · exact absurd h (by simp)
      · split at h
        · simp only [Option.some.injEq, Prod.mk.injEq] at h
          intro c hc
          rw [← h.2] at hc
          exact List.mem_cons_of_mem _
            (List.mem_cons_of_mem _ (List.mem_of_mem_drop hc))
        · exact absurd h (by simp)
    · exact absurd h (by simp)

theorem parseVarsL_dropWhile (c : Char) (hc : ¬ c = '$') :
    ∀ (cs : List Char), parseVarsL cs = parseVarsL (cs.dropWhile (· = c)) := by
  intro cs
  induction cs with
  | nil => simp
  | cons x t ih =>
    rw [List.dropWhile_cons]
    by_cases hx : x = c
    · rw [if_pos (by simp [hx]),
        parseVarsL_cons_none (varAt_not_dollar (by rw [hx]; exact hc))]
      exact ih
    · rw [if_neg (by simp [hx])]

theorem parseVarsL_escape_aux :
    ∀ (n : Nat) (l : List Char), l.length ≤ n →
      parseVarsL (escapeBraces l) = parseVarsL l := by
  intro n
  induction n with
  | zero =>
    intro l hl
    have hnil : l = [] := List.eq_nil_of_length_eq_zero (Nat.le_zero.mp hl)
    subst hnil
    rw [escapeBraces_nil]
  | succ n ih =>
    intro l hl
    cases l with
    | nil => rw [escapeBraces_nil]
    | cons c cs =>
      cases hv : varAt (c :: cs) with
      | some p =>
        obtain ⟨nm, rest⟩ := p
        have hvE : varAt (escapeBraces (c :: cs)) = some (nm, escapeBraces rest) := by
          rw [varAt_escape, hv]
          rfl
        cases hE : escapeBraces (c :: cs) with
        | nil => exact absurd hE (escapeBraces_ne_nil c cs)
        | cons d w =>
          rw [hE] at hvE
          rw [parseVarsL_cons_some hvE, parseVarsL_cons_some hv]
          congr 1
          exact ih rest (by
            have := varAt_length hv
            simp only [List.length_cons] at this hl
            omega)
      | none =>
        rw [parseVarsL_cons_none hv]
        by_cases hb : isBrace c
        · rw [escapeBraces_brace _ hb,
            parseVarsL_cons_none (varAt_not_dollar (by decide)),
            parseVarsL_cons_none (varAt_not_dollar (by decide))]
          have hlen : (cs.dropWhile (· = c)).length ≤ n := by
            have h1 : (cs.dropWhile (· = c)).length ≤ cs.length :=
              (List.dropWhile_suffix _).sublist.length_le
            simp only [List.length_cons] at hl
            omega
          rw [ih (cs.dropWhile (· = c)) hlen]
          have hc' : ¬ c = '$' := by
            intro hcc
            subst hcc
            exact absurd hb (by decide)
          exact (parseVarsL_dropWhile c hc' cs).symm
        · rw [escapeBraces_not_brace _ (by simpa using hb)]
          have hvE : varAt (c :: escapeBraces cs) = none := by
            have hh := varAt_escape (c :: cs)
            rw [hv, escapeBraces_not_brace _ (by simpa using hb)] at hh
            simpa using hh
          rw [parseVarsL_cons_none hvE]
          exact ih cs (by simp only [List.length_cons] at hl; omega)

/-- The escape step neither creates nor destroys `$(name)` occurrences:
`_parse_variables` reads the same variables off the escaped string as
off the original. -/
theorem parseVarsL_escape (l : List Char) :
    parseVarsL (escapeBraces l) = parseVarsL l :=
  parseVarsL_escape_aux l.length l le_rfl

theorem tokenize_subVars_aux :
    ∀ (n : Nat) (l : List Char), l.length ≤ n → (∀ c ∈ l, isBrace c = false) →
      ∃ ts, tokenize (subVars l) = some ts ∧
        countFields ts = (parseVarsL l).length := by
  intro n
  induction n with
  | zero =>
    intro l hl _
    have hnil : l = [] := List.eq_nil_of_length_eq_zero (Nat.le_zero.mp hl)
    subst hnil
    exact ⟨[], by rw [subVars_nil, tokenize_nil], by simp [countFields, parseVarsL_nil]⟩
  | succ n ih =>
    intro l hl hnb
    cases l with
    | nil =>
      exact ⟨[], by rw [subVars_nil, tokenize_nil], by simp [countFields, parseVarsL_nil]⟩
    | cons c cs =>
      cases hv : varAt (c :: cs) with
      | some p =>
        obtain ⟨nm, rest⟩ := p
        rw [subVars_cons_some hv, parseVarsL_cons_some hv]
        have hrest_nb : ∀ d ∈ rest, isBrace d = false :=
          fun d hd => hnb d (varAt_rest_mem hv d hd)
        have hlen : rest.length ≤ n := by
          have := varAt_length hv
          simp only [List.length_cons] at this hl
          omega
        obtain ⟨ts, h1, h2⟩ := ih rest hlen hrest_nb
        refine ⟨Tok.field :: ts, ?_, ?_⟩
        · rw [tokenize_field_cons, h1]
          rfl
        · simp only [countFields, List.count_cons_self, List.length_cons]
          rw [← h2]
          rfl
      | none =>
        rw [subVars_cons_none hv, parseVarsL_cons_none hv]
        have hcnb : isBrace c = false := hnb c (by simp)
        have hlen : cs.length ≤ n := by
          simp only [List.length_cons] at hl
          omega
        obtain ⟨ts, h1, h2⟩ := ih cs hlen (fun d hd => hnb d (List.mem_cons_of_mem _ hd))
        refine ⟨Tok.lit c :: ts, ?_, ?_⟩
        · rw [tokenize_not_brace _ hcnb, h1]
          rfl
        · rw [countFields, List.count_cons_of_ne (by simp)]
          exact h2

/-- Compiling a transformed pattern always succeeds and yields exactly
one anonymous field per `$(name)` occurrence of the raw pattern. -/
theorem compileToks_escape_count (s : String) :
    ∃ ts, tokenize (subVars (escapeBraces s.data)) = some ts ∧
      compileToks (subVars (escapeBraces s.data)) = ts ∧
      countFields ts = (parseVarsL s.data).length := by
  obtain ⟨ts, h1, h2⟩ := tokenize_subVars_aux (escapeBraces s.data).length
    (escapeBraces s.data) le_rfl (escapeBraces_no_brace _)
  exact ⟨ts, h1, by rw [compileToks, h1]; rfl, by rw [h2, parseVarsL_escape]⟩

/-- A compiled template always declares exactly as many fields in its
matcher as variable names in `req_vars`. -/
theorem mkRequest_field_count (raw_req : String) (raw_resp : Option String) :
    countFields (mkMockingbirdRequest raw_req raw_resp).request_toks =
      (mkMockingbirdRequest raw_req raw_resp).req_vars.length := by
  obtain ⟨ts, _, h2, h3⟩ := compileToks_escape_count raw_req
  simp only [mkMockingbirdRequest]
  rw [h2, h3, List.length_map]

/-! ### Support lemmas for the claim theorems -/

theorem perm_pair {α : Type} {l : List α} {a b : α} (h : l.Perm [a, b]) :
    l = [a, b] ∨ l = [b, a] := by
  have hlen : l.length = 2 := by simpa using h.length_eq
  match l, hlen with
  | [x, y], _ =>
    have hx : x ∈ [a, b] := h.mem_iff.mp (by simp)
    rcases List.mem_pair.mp hx with rfl | rfl
    · left
      have h1 : [y].Perm [b] := h.cons_inv
      rw [List.perm_singleton.mp h1]
    · right
      have h1 : [y].Perm [a] := (h.trans (List.Perm.swap x a [])).cons_inv
      rw [List.perm_singleton.mp h1]

theorem firstUndefinedVar_none_iff {d : Dict MockingbirdVar} :
    ∀ {vs : List String}, firstUndefinedVar d vs = none ↔
      ∀ v ∈ vs, dcontains d v = true := by
  intro vs
  induction vs with
  | nil => simp [firstUndefinedVar]
  | cons v vs ih =>
    by_cases hv : dcontains d v
    · simp [firstUndefinedVar, hv, ih]
    · rw [firstUndefinedVar, if_neg hv]
      constructor
      · intro h
        simp at h
      · intro h
        exact absurd (h v (by simp)) (by simpa using hv)

theorem firstUndefinedVar_some {d : Dict MockingbirdVar} :
    ∀ {vs : List String} {v : String}, firstUndefinedVar d vs = some v →
      dcontains d v = false ∧ v ∈ vs := by
  intro vs
  induction vs with
  | nil => intro v h; simp [firstUndefinedVar] at h
  | cons w vs ih =>
    intro v h
    by_cases hw : dcontains d w
    · rw [firstUndefinedVar, if_pos hw] at h
      obtain ⟨h1, h2⟩ := ih h
      exact ⟨h1, by simp [h2]⟩
    · rw [firstUndefinedVar, if_neg hw] at h
      cases h
      exact ⟨by simpa using hw, by simp⟩

theorem firstUndefinedVar_some_of_exists {d : Dict MockingbirdVar}
    {vs : List String} (h : ∃ v ∈ vs, dcontains d v = false) :
    ∃ v, firstUndefinedVar d vs = some v := by
  cases hf : firstUndefinedVar d vs with
  | some v => exact ⟨v, rfl⟩
  | none =>
    obtain ⟨v, hv, hvc⟩ := h
    have := firstUndefinedVar_none_iff.mp hf v hv
    rw [this] at hvc
    cases hvc

/-- Whatever happens inside `_request` after the lookup, the stored
template list of the looked-up interface has been replaced, in place, by
the shuffled list. -/
theorem request_requests_eq (st : Mockingbird) (interface key req_text : String)
    (now : Nat) (shuffled : List MockingbirdRequest)
    (l : List MockingbirdRequest)
    (hl : dlookup st.requests interface = some l) :
    (st.request interface key req_text now shuffled).2.requests =
      dset st.requests interface shuffled := by
  unfold Mockingbird.request
  rw [hl]
  try dsimp only
  repeat' split
  all_goals rfl

/-- `_register_request` never touches the variable store. -/
theorem register_mb_vars_eq (st : Mockingbird) (interface : String)
    (rq rp : Option String) :
    (st.register_request interface rq rp).2.mb_vars = st.mb_vars := by
  unfold Mockingbird.register_request
  try dsimp only
  repeat' split
  all_goals rfl

/-- `_respond_loop` never touches the variable store. -/
theorem respond_once_mb_vars_eq (st : Mockingbird) :
    st.respond_once.2.1.mb_vars = st.mb_vars := by
  unfold Mockingbird.respond_once
  try dsimp only
  repeat' split
  all_goals rfl

theorem setVarsLoop_keys :
    ∀ (m : List (String × PyVal)) (d : Dict MockingbirdVar),
      dkeys (setVarsLoop d m).2 = dkeys d := by
  intro m
  induction m with
  | nil => intro d; rfl
  | cons p rest ih =>
    intro d
    obtain ⟨k, v⟩ := p
    simp only [setVarsLoop]
    cases hk : dlookup d k with
    | none => rfl
    | some mv =>
      rw [ih, dkeys_dset_of_lookup_some _ (by rw [hk]; rfl)]

/-- `_request` can only update values of existing variables: the key
list of the variable store is unchanged whatever branch is taken. -/
theorem request_mb_vars_keys (st : Mockingbird) (interface key req_text : String)
    (now : Nat) (shuffled : List MockingbirdRequest) :
    dkeys (st.request interface key req_text now shuffled).2.mb_vars =
      dkeys st.mb_vars := by
  unfold Mockingbird.request
  try dsimp only
  repeat' split
  all_goals (first | rfl | apply setVarsLoop_keys)

theorem statusLoop_ok (procs : Dict MockingbirdProcess) :
    ∀ (ns : List String) (acc : Dict String),
      (∀ n ∈ ns, (dlookup procs n).isSome) →
      ∃ res, statusLoop procs ns acc = .ok res ∧
        ∀ k, dlookup res k =
          if k ∈ ns then (dlookup procs k).map (fun p => p.status.name)
          else dlookup acc k := by
  intro ns
  induction ns with
  | nil =>
    intro acc _
    exact ⟨acc, rfl, by intro k; simp⟩
  | cons n ns ih =>
    intro acc hall
    cases hn : dlookup procs n with
    | none => exact absurd (hall n (by simp)) (by simp [hn])
    | some p =>
      obtain ⟨res, h1, h2⟩ := ih (dset acc n p.status.name)
        (fun m hm => hall m (by simp [hm]))
      refine ⟨res, by simp only [statusLoop, hn]; exact h1, ?_⟩
      intro k
      rw [h2 k]
      by_cases hk : k ∈ ns
      · simp [hk]
      · by_cases hkn : k = n
        · subst hkn
          simp [hk, hn, dlookup_dset_self]
        · simp [hk, hkn, dlookup_dset_ne _ _ (fun he => hkn he.symm)]

theorem statusLoop_error (procs : Dict MockingbirdProcess) :
    ∀ (pre : List String) (bad : String) (rest : List String) (acc : Dict String),
      (∀ m ∈ pre, (dlookup procs m).isSome) → dlookup procs bad = none →
      statusLoop procs (pre ++ bad :: rest) acc = .error (ApiError.notFound bad) := by
  intro pre
  induction pre with
  | nil =>
    intro bad rest acc _ hbad
    simp [statusLoop, hbad]
  | cons m pre ih =>
    intro bad rest acc hall hbad
    cases hm : dlookup procs m with
    | none => exact absurd (hall m (by simp)) (by simp [hm])
    | some p =>
      simp only [List.cons_append, statusLoop, hm]
      exact ih bad rest _ (fun x hx => hall x (by simp [hx])) hbad

theorem statusLoop_all (procs : Dict MockingbirdProcess) :
    ∀ (ps : Dict MockingbirdProcess) (acc : Dict String),
      (∀ pr ∈ ps, dlookup procs pr.1 = some pr.2) →
      (ps.map Prod.fst).Nodup →
      (∀ pr ∈ ps, dlookup acc pr.1 = none) →
      statusLoop procs (ps.map Prod.fst) acc =
        .ok (acc ++ ps.map (fun pr => (pr.1, pr.2.status.name))) := by
  intro ps
  induction ps with
  | nil =>
    intro acc _ _ _
    simp [statusLoop]
  | cons pr ps ih =>
    intro acc hsub hnd hdisj
    simp only [List.map_cons, statusLoop, hsub pr (by simp)]
    rw [dset_of_lookup_none _ (hdisj pr (by simp))]
    have hnd' : (ps.map Prod.fst).Nodup := by
      simp only [List.map_cons, List.nodup_cons] at hnd
      exact hnd.2
    have hfst : pr.1 ∉ ps.map Prod.fst := by
      simp only [List.map_cons, List.nodup_cons] at hnd
      exact hnd.1
    have hdisj' : ∀ q ∈ ps, dlookup (acc ++ [(pr.1, pr.2.status.name)]) q.1 = none := by
      intro q hq
      rw [dlookup_append, hdisj q (by simp [hq])]
      have hne : pr.1 ≠ q.1 := by
        intro he
        exact hfst (he ▸ List.mem_map_of_mem Prod.fst hq)
      simp [dlookup, hne]
    rw [ih (acc ++ [(pr.1, pr.2.status.name)])
      (fun q hq => hsub q (by simp [hq])) hnd' hdisj']
    simp

theorem dcontains_mkMockingbird (vars : List (String × String × PyVal))
    (interfaces : List String) (n : String) :
    dcontains (mkMockingbird vars interfaces).mb_vars n = true ↔
      n ∈ vars.map (fun v => v.1) := by
  have hfold : (mkMockingbird vars interfaces).mb_vars =
      (vars.map (fun v => (v.1, (⟨v.2.1, v.2.2⟩ : MockingbirdVar)))).foldl
        (fun d p => dset d p.1 p.2) [] := by
    rw [mkMockingbird]
    rw [List.foldl_map]
  rw [dcontains, hfold, dlookup_foldl_dset]
  cases hf : (vars.map (fun v => (v.1, (⟨v.2.1, v.2.2⟩ : MockingbirdVar)))).reverse.find?
      (fun p => p.1 = n) with
  | some q =>
    simp only [Option.isSome_some, true_iff]
    have hq := List.mem_of_find?_eq_some hf
    have hqp := List.find?_some hf
    simp only [List.mem_reverse, List.mem_map] at hq
    obtain ⟨v, hv, hvq⟩ := hq
    simp only [decide_eq_true_eq] at hqp
    rw [← hvq] at hqp
    exact List.mem_map.mpr ⟨v, hv, hqp⟩
  | none =>
    simp only [dlookup, Option.isSome_none, Bool.false_eq_true, false_iff]
    intro hmem
    obtain ⟨v, hv, hvn⟩ := List.mem_map.mp hmem
    have := List.find?_eq_none.mp hf (v.1, (⟨v.2.1, v.2.2⟩ : MockingbirdVar))
      (by simp only [List.mem_reverse, List.mem_map]; exact ⟨v, hv, rfl⟩)
    simp [hvn] at this

/-! ### Claim theorems -/

/-- C2: the claim fails on the code.  `_escape_curly_braces` does not
double brace runs: the replacement template `\0\0` octal-escapes to two
NUL characters, so every brace run of the round-trip example
`\x7b\x7b\x7d\x7dunits \x7b\x7b\x7b\x7d\x7d\x7b\x7d\x7d $(unit)\x7b\x7d\x7d`
becomes NULs, differing from the run-doubling the spec (and the code's
own docstring and tests) describe; consequently the compiled request no
longer matches the braced input, and a rendered response carries NUL
characters where the literal braces should round-trip. -/
theorem brace_escape_produces_nul :
    escapeBraces bracePattern.data =
      ("\x00\x00\x00\x00units \x00\x00\x00\x00\x00\x00\x00\x00 $(unit)\x00\x00\x00\x00" : String).data ∧
    escapeBraces bracePattern.data ≠ escapeBracesSpec bracePattern.data ∧
    (mkMockingbirdRequest bracePattern (some "$(unit)")).parse braceRequest =
      .ok none ∧
    (mkMockingbirdRequest "x" (some "\x7b\x7d$(unit)")).build_response
      [("unit", ⟨"str", PyVal.s "5"⟩)] = .ok (some "\x00\x00\x00\x005") :=
  ⟨by decide, by decide, by decide, by decide⟩

/-- C3: the claim fails on the code.  With no registered default and no
matching template, `_request` reads `.delay` off `None`
(`AttributeError`), the match-stage thread crashes, and no response is
scheduled for the reply key - instead of producing an empty-string
response without raising. -/
theorem no_default_no_match_raises :
    dlookup c3Mb.requests "tcp" = some [mkMockingbirdRequest "a" (some "b")] ∧
    dlookup c3Mb.default_responses "tcp" = none ∧
    (c3Mb.request "tcp" "key1" "zzz" 0 [mkMockingbirdRequest "a" (some "b")]).1 =
      some PyError.attributeError ∧
    (c3Mb.request "tcp" "key1" "zzz" 0
      [mkMockingbirdRequest "a" (some "b")]).2.response_queue = [] :=
  ⟨by decide, by decide, by decide, by decide⟩

/-- C4: registering a request/response pair that references a variable
missing from the store raises the undefined-variable error (for some
such variable) and returns the state unchanged: no template is appended
to any interface and no default is set. -/
theorem register_undefined_var_fails (st : Mockingbird) (interface r p : String)
    (h : ∃ v ∈ parse_variables r ++ parse_variables p,
      dcontains st.mb_vars v = false) :
    ∃ v, dcontains st.mb_vars v = false ∧
      st.register_request interface (some r) (some p) =
        (some (PyError.undefinedVar v), st) := by
  have hmal : ¬ (((some r : Option String).getD "") ≠ "" ∧
      (some p : Option String) = none) := by simp
  cases hfu : firstUndefinedVar st.mb_vars (parse_variables r) with
  | some v1 =>
    refine ⟨v1, (firstUndefinedVar_some hfu).1, ?_⟩
    rw [Mockingbird.register_request, if_neg hmal]
    simp only [Mockingbird.create_request, Mockingbird.verify_vars_defined, hfu,
      Option.map]
  | none =>
    have hall : ∀ v ∈ parse_variables r, dcontains st.mb_vars v = true :=
      firstUndefinedVar_none_iff.mp hfu
    have hp : ∃ v ∈ parse_variables p, dcontains st.mb_vars v = false := by
      obtain ⟨v, hv, hvc⟩ := h
      rcases List.mem_append.mp hv with hv | hv
      · rw [hall v hv] at hvc
        cases hvc
      · exact ⟨v, hv, hvc⟩
    obtain ⟨v2, hv2⟩ := firstUndefinedVar_some_of_exists hp
    refine ⟨v2, (firstUndefinedVar_some hv2).1, ?_⟩
    rw [Mockingbird.register_request, if_neg hmal]
    simp only [Mockingbird.create_request, Mockingbird.verify_vars_defined, hfu,
      hv2, Option.map]

theorem register_undefined_var_fails_witness :
    ∃ v, dcontains coordMb.mb_vars v = false ∧
      coordMb.register_request "tcp" (some "$(z)") (some "ok") =
        (some (PyError.undefinedVar v), coordMb) :=
  register_undefined_var_fails coordMb "tcp" "$(z)" "ok"
    ⟨"z", by decide, by decide⟩

/-- C6 counterexample: registering the *empty-string* request pattern
with a `None` response is not discarded: the truthiness check
`if raw_req and raw_resp is None` misses `""`, so a template is created
and appended to the interface list. -/
theorem empty_request_none_response_registered :
    dlookup c6Mb.requests "tcp" = some [] ∧
    (c6Mb.register_request "tcp" (some "") none).1 = none ∧
    dlookup (c6Mb.register_request "tcp" (some "") none).2.requests "tcp" =
      some [mkMockingbirdRequest "" none] :=
  ⟨by decide, by decide, by decide⟩

/-- C6 (amended): only a *nonempty* request pattern paired with a `None`
response is treated as malformed: it is discarded and the whole state -
template lists and default responses - is returned unchanged. -/
theorem nonempty_request_none_response_discarded (st : Mockingbird)
    (interface s : String) (h : s ≠ "") :
    st.register_request interface (some s) none = (none, st) := by
  rw [Mockingbird.register_request, if_pos (by simp [h])]

theorem nonempty_request_none_response_discarded_witness :
    c6Mb.register_request "tcp" (some "a") none = (none, c6Mb) :=
  nonempty_request_none_response_discarded c6Mb "tcp" "a" (by decide)

/-- C7 counterexample: a match-stage lookup can mutate the stored
template list: `random.shuffle` permutes the registry's list in place
(no transient copy), so an admissible shuffle outcome leaves the stored
list in a different order than before the lookup. -/
theorem match_lookup_reorders_registry :
    List.Perm [tmplB, tmplA] [tmplA, tmplB] ∧
    dlookup c7Mb.requests "tcp" = some [tmplA, tmplB] ∧
    (c7Mb.request "tcp" "k" "a" 0 [tmplB, tmplA]).1 = none ∧
    dlookup (c7Mb.request "tcp" "k" "a" 0 [tmplB, tmplA]).2.requests "tcp" =
      some [tmplB, tmplA] ∧
    [tmplB, tmplA] ≠ [tmplA, tmplB] :=
  ⟨List.Perm.swap tmplA tmplB [], by decide, by decide, by decide, by decide⟩

/-- C7 (amended): a match-stage lookup stores the shuffled permutation
back into the registry in place: afterwards the stored list is exactly
the shuffle outcome - a permutation of the previous list, with no
template added or removed - and other interfaces are untouched. -/
theorem match_lookup_stores_permutation (st : Mockingbird)
    (interface key req_text : String) (now : Nat)
    (shuffled l : List MockingbirdRequest)
    (hl : dlookup st.requests interface = some l) (hp : shuffled.Perm l) :
    dlookup (st.request interface key req_text now shuffled).2.requests interface =
      some shuffled ∧
    (∀ other, other ≠ interface →
      dlookup (st.request interface key req_text now shuffled).2.requests other =
        dlookup st.requests other) ∧
    shuffled.Perm l := by
  have hreq := request_requests_eq st interface key req_text now shuffled l hl
  refine ⟨by rw [hreq, dlookup_dset_self], ?_, hp⟩
  intro other ho
  rw [hreq, dlookup_dset_ne _ _ (fun he => ho he.symm)]

theorem match_lookup_stores_permutation_witness :
    dlookup (c7Mb.request "tcp" "k" "a" 0 [tmplA, tmplB]).2.requests "tcp" =
      some [tmplA, tmplB] :=
  (match_lookup_stores_permutation c7Mb "tcp" "k" "a" 0 [tmplA, tmplB]
    [tmplA, tmplB] (by decide) (List.Perm.refl _)).1

/-- C5: `start` on a Stopped device transitions it to Running and `stop`
on a Running device to Stopped; `start` on Running raises the
already-running error and `stop` on Stopped the not-running error, and
in both error cases the state - hence the report of `status()` - is
unchanged. -/
theorem lifecycle_start_stop (a : Atticus) (name : String)
    (p : MockingbirdProcess) (h : dlookup a.mb_procs name = some p) :
    a.status [name] = .ok [(name, p.status.name)] ∧
    (p.status = PStatus.STOPPED →
      (a.start name).1 = none ∧
      dlookup (a.start name).2.mb_procs name = some { status := PStatus.RUNNING } ∧
      (a.stop name).1 = some (ApiError.notRunning name) ∧
      (a.stop name).2 = a ∧
      (a.stop name).2.status [name] = a.status [name]) ∧
    (p.status = PStatus.RUNNING →
      (a.stop name).1 = none ∧
      dlookup (a.stop name).2.mb_procs name = some { status := PStatus.STOPPED } ∧
      (a.start name).1 = some (ApiError.running name) ∧
      (a.start name).2 = a ∧
      (a.start name).2.status [name] = a.status [name]) := by
  have hstat : a.status [name] = .ok [(name, p.status.name)] := by
    rw [Atticus.status]
    simp only [List.isEmpty_cons, statusLoop, h]
    rfl
  refine ⟨hstat, ?_, ?_⟩
  · intro hs
    have hstart : a.start name =
        (none, { mb_procs := dset a.mb_procs name { status := PStatus.RUNNING } }) := by
      rw [Atticus.start, h]
      dsimp only
      rw [if_neg (by simp [hs]), MockingbirdProcess.start, if_neg (by simp [hs])]
    have hstop : a.stop name = (some (ApiError.notRunning name), a) := by
      rw [Atticus.stop, h]
      dsimp only
      rw [if_pos (by simp [hs])]
    rw [hstart, hstop]
    exact ⟨rfl, dlookup_dset_self _ _ _, rfl, rfl, rfl⟩
  · intro hs
    have hstop : a.stop name =
        (none, { mb_procs := dset a.mb_procs name { status := PStatus.STOPPED } }) := by
      rw [Atticus.stop, h]
      dsimp only
      rw [if_neg (by simp [hs]), MockingbirdProcess.stop, if_neg (by simp [hs])]
    have hstart : a.start name = (some (ApiError.running name), a) := by
      rw [Atticus.start, h]
      dsimp only
      rw [if_pos (by simp [hs])]
    rw [hstart, hstop]
    exact ⟨rfl, dlookup_dset_self _ _ _, rfl, rfl, rfl⟩

theorem lifecycle_start_stop_witness :
    (atticusPair.start "dev2").1 = none ∧
    dlookup (atticusPair.start "dev2").2.mb_procs "dev2" =
      some { status := PStatus.RUNNING } ∧
    (atticusPair.stop "dev2").1 = some (ApiError.notRunning "dev2") ∧
    (atticusPair.stop "dev2").2 = atticusPair ∧
    (atticusPair.stop "dev2").2.status ["dev2"] = atticusPair.status ["dev2"] :=
  (lifecycle_start_stop atticusPair "dev2" { status := PStatus.STOPPED }
    (by decide)).2.1 rfl

/-- C8: for every compiled template and input string, `parse` returns no
match exactly when the matcher rejects the input; when the matcher
matches, `parse` never raises: the positional values are exactly one per
declared variable name (so the `MockingbirdError` branch guarding the
count mismatch is dead for compiled templates, and values are never
silently truncated), and in the resulting map a later duplicate
occurrence of a name overwrites an earlier one. -/
theorem matcher_one_value_per_name (raw_req : String) (raw_resp : Option String)
    (input : String) (r : MockingbirdRequest)
    (hr : r = mkMockingbirdRequest raw_req raw_resp) :
    (∀ e, r.parse input ≠ .error e) ∧
    (matchToks r.request_toks input.data = none → r.parse input = .ok none) ∧
    (∀ vals, matchToks r.request_toks input.data = some vals →
      vals.length = r.req_vars.length ∧
      r.parse input = .ok (some (dictOfPairs (r.req_vars.zip
        (vals.map (fun v => PyVal.s (String.mk v)))))) ∧
      (∀ k, dlookup (dictOfPairs (r.req_vars.zip
          (vals.map (fun v => PyVal.s (String.mk v))))) k =
        ((r.req_vars.zip (vals.map (fun v => PyVal.s (String.mk v)))).reverse.find?
          (fun q => q.1 = k)).map Prod.snd)) := by
  have hcount : ∀ vals, matchToks r.request_toks input.data = some vals →
      vals.length = r.req_vars.length := by
    intro vals hm
    rw [hr] at hm ⊢
    rw [matchToks_length _ _ _ hm, mkRequest_field_count]
  refine ⟨?_, ?_, ?_⟩
  · intro e
    rw [MockingbirdRequest.parse]
    cases hm : matchToks r.request_toks input.data with
    | none => simp
    | some vals =>
      dsimp only
      rw [if_neg (by simp [hcount vals hm])]
      simp
  · intro hm
    rw [MockingbirdRequest.parse, hm]
  · intro vals hm
    refine ⟨hcount vals hm, ?_, fun k => dlookup_dictOfPairs _ k⟩
    rw [MockingbirdRequest.parse, hm]
    dsimp only
    rw [if_neg (by simp [hcount vals hm])]

theorem matcher_one_value_per_name_witness :
    (mkMockingbirdRequest "units $(unit)" (some "$(unit)")).parse "units 5" =
      .ok (some (dictOfPairs
        ((mkMockingbirdRequest "units $(unit)" (some "$(unit)")).req_vars.zip
          ([['5']].map (fun v => PyVal.s (String.mk v)))))) ∧
    ([['5']] : List (List Char)).length =
      (mkMockingbirdRequest "units $(unit)" (some "$(unit)")).req_vars.length := by
  have h := matcher_one_value_per_name "units $(unit)" (some "$(unit)")
    "units 5" _ rfl
  have h2 := h.2.2 [['5']] (by decide)
  exact ⟨h2.2.1, h2.1⟩

/-- C9: `status()` with no names reports every loaded mockingbird, one
entry per loaded name in load order; with names it raises `NotFound` at
the first name that is not loaded and otherwise returns exactly the
requested names. -/
theorem status_no_args_and_named (a : Atticus)
    (hnd : (dkeys a.mb_procs).Nodup) :
    a.status [] = .ok (a.mb_procs.map (fun pr => (pr.1, pr.2.status.name))) ∧
    (∀ args : List String, args ≠ [] →
      (∀ n ∈ args, (dlookup a.mb_procs n).isSome) →
      ∃ res, a.status args = .ok res ∧
        ∀ k, dlookup res k =
          if k ∈ args then (dlookup a.mb_procs k).map (fun p => p.status.name)
          else none) ∧
    (∀ (pre : List String) (bad : String) (rest : List String),
      (∀ m ∈ pre, (dlookup a.mb_procs m).isSome) →
      dlookup a.mb_procs bad = none →
      a.status (pre ++ bad :: rest) = .error (ApiError.notFound bad)) := by
  refine ⟨?_, ?_, ?_⟩
  · rw [Atticus.status]
    simp only [List.isEmpty_nil, if_pos]
    have hall := statusLoop_all a.mb_procs a.mb_procs []
      (fun pr hpr => dlookup_of_mem_of_nodup hpr hnd) hnd (fun pr _ => rfl)
    simpa using hall
  · intro args hne hall
    rw [Atticus.status]
    have hie : args.isEmpty = false := by
      cases args with
      | nil => exact absurd rfl hne
      | cons x xs => rfl
    simp only [hie, Bool.false_eq_true, if_false]
    obtain ⟨res, h1, h2⟩ := statusLoop_ok a.mb_procs args [] hall
    refine ⟨res, h1, fun k => ?_⟩
    rw [h2 k]
    by_cases hk : k ∈ args <;> simp [hk, dlookup]
  · intro pre bad rest hall hbad
    rw [Atticus.status]
    have hie : (pre ++ bad :: rest).isEmpty = false := by simp
    simp only [hie, Bool.false_eq_true, if_false]
    exact statusLoop_error a.mb_procs pre bad rest [] hall hbad

theorem status_no_args_and_named_witness :
    atticusPair.status [] = .ok [("dev1", "RUNNING"), ("dev2", "STOPPED")] ∧
    atticusPair.status ["zzz"] = .error (ApiError.notFound "zzz") := by
  have h := status_no_args_and_named atticusPair (by decide)
  refine ⟨h.1, ?_⟩
  have h3 := h.2.2 [] "zzz" [] (by simp) (by decide)
  simpa using h3

/-- C10: the set of variable names is fixed at construction from the
configuration, and every subsequent operation - registration, request
processing (which writes values only through keys already present), and
responding - leaves the key list of the variable store unchanged. -/
theorem var_store_keys_invariant :
    (∀ (vars : List (String × String × PyVal)) (interfaces : List String)
      (n : String),
      dcontains (mkMockingbird vars interfaces).mb_vars n = true ↔
        n ∈ vars.map (fun v => v.1)) ∧
    (∀ (st : Mockingbird) (interface : String) (rq rp : Option String),
      dkeys (st.register_request interface rq rp).2.mb_vars =
        dkeys st.mb_vars) ∧
    (∀ (st : Mockingbird) (interface key req_text : String) (now : Nat)
      (shuffled : List MockingbirdRequest),
      dkeys (st.request interface key req_text now shuffled).2.mb_vars =
        dkeys st.mb_vars) ∧
    (∀ st : Mockingbird, dkeys st.respond_once.2.1.mb_vars = dkeys st.mb_vars) :=
  ⟨dcontains_mkMockingbird,
   fun st interface rq rp => by rw [register_mb_vars_eq],
   request_mb_vars_keys,
   fun st => by rw [respond_once_mb_vars_eq]⟩

/-- C1: after registering the templates
`set coordinates $(x) $(y) -> $(x) $(y)` and
`get coordinates -> $(x) $(y)` on an interface whose store defines `x`
and `y`, processing `set coordinates 1 2` through the match stage (under
any admissible shuffle) succeeds and stores `1` into `x` and `2` into
`y`; subsequently processing `get coordinates` through the match and
respond stages (again under any admissible shuffle) produces the
response `1 2` for the second request's reply key. -/
theorem variable_persistence (sh1 sh2 : List MockingbirdRequest)
    (hp1 : sh1.Perm [setTemplate, getTemplate]) (hp2 : sh2.Perm sh1) :
    dlookup coordMb.requests "tcp" = some [setTemplate, getTemplate] ∧
    (coordMb0.register_request "tcp" (some "set coordinates $(x) $(y)")
      (some "$(x) $(y)")).1 = none ∧
    ((coordMb0.register_request "tcp" (some "set coordinates $(x) $(y)")
      (some "$(x) $(y)")).2.register_request "tcp" (some "get coordinates")
      (some "$(x) $(y)")).1 = none ∧
    (coordMb.request "tcp" "k1" "set coordinates 1 2" 0 sh1).1 = none ∧
    dlookup (coordMb.request "tcp" "k1" "set coordinates 1 2" 0 sh1).2.mb_vars
      "x" = some ⟨"int", PyVal.s "1"⟩ ∧
    dlookup (coordMb.request "tcp" "k1" "set coordinates 1 2" 0 sh1).2.mb_vars
      "y" = some ⟨"int", PyVal.s "2"⟩ ∧
    ((((coordMb.request "tcp" "k1" "set coordinates 1 2" 0
        sh1).2.respond_once).2.1.request "tcp" "k2" "get coordinates" 0
        sh2).1 = none) ∧
    (((((coordMb.request "tcp" "k1" "set coordinates 1 2" 0
        sh1).2.respond_once).2.1.request "tcp" "k2" "get coordinates" 0
        sh2).2.respond_once).2.2 = some ("tcp", "k2", some "1 2")) := by
  rcases perm_pair hp1 with rfl | rfl <;>
    rcases perm_pair hp2 with rfl | rfl <;>
    exact ⟨by decide, by decide, by decide, by decide, by decide, by decide,
      by decide, by decide⟩

theorem variable_persistence_witness :
    ((((coordMb.request "tcp" "k1" "set coordinates 1 2" 0
        [setTemplate, getTemplate]).2.respond_once).2.1.request "tcp" "k2"
        "get coordinates" 0 [setTemplate, getTemplate]).2.respond_once).2.2 =
      some ("tcp", "k2", some "1 2") :=
  (variable_persistence [setTemplate, getTemplate] [setTemplate, getTemplate]
    (List.Perm.refl _) (List.Perm.refl _)).2.2.2.2.2.2.2

end Atticus
